import Mathlib

/-!
Verification of the comic-book video-assembly pipeline.

Shallow embedding of the timing, camera-effect, audio and subtitle logic of
the repository (stages/stage5_video_assembler.py, utils/kenburns.py,
utils/srt_generator.py, config.py).  Durations and coordinates are modelled
as rationals; text is modelled as strings or character lists; the
filesystem is abstracted as lookup functions (a per-scene audio file is a
function from scene id and extension to an optional measured duration, an
image directory is a predicate on scene ids).
-/

/- ── Configuration constants (config.py) ───────────────────────────── -/

def VIDEO_WIDTH : ℕ := 1920

def VIDEO_HEIGHT : ℕ := 1080

def VIDEO_FPS : ℕ := 30

def MAX_DURATION : ℚ := 120

def BGM_VOLUME : ℚ := 15 / 100

def AUDIO_FADE_IN : ℚ := 1

def AUDIO_FADE_OUT : ℚ := 2

/- ── Cubic ease-in-out (utils/kenburns.py, ease_in_out) ───────────── -/

/-- Embedding of the cubic easing curve from utils/kenburns.py:
if t < 0.5 then 4*t*t*t else 1 - pow(-2*t + 2, 3) / 2. -/
def ease_in_out (t : ℚ) : ℚ :=
  if t < 1/2 then 4 * t * t * t else 1 - (-2 * t + 2)^3 / 2

theorem ease_in_out_zero : ease_in_out 0 = 0 := by
  norm_num [ease_in_out]

theorem ease_in_out_one : ease_in_out 1 = 1 := by
  norm_num [ease_in_out]

theorem ease_in_out_mono {s t : ℚ} (hs : 0 ≤ s) (hst : s ≤ t) (ht : t ≤ 1) :
    ease_in_out s ≤ ease_in_out t := by
  unfold ease_in_out
  split_ifs with h1 h2 h2
  · nlinarith [mul_nonneg hs hs, mul_nonneg (mul_nonneg hs hs) hs,
      sq_nonneg (s + t), sq_nonneg (s - t), mul_nonneg (mul_nonneg hs hs) (sub_nonneg.2 hst)]
  · nlinarith [mul_nonneg hs hs, mul_nonneg (mul_nonneg hs hs) hs,
      sq_nonneg (1 - 2*t), mul_nonneg hs (sub_nonneg.2 hst)]
  · linarith
  · nlinarith [sq_nonneg (s - t), sq_nonneg ((1 - s) + (1 - t)),
      mul_nonneg (sub_nonneg.2 hst) (sq_nonneg ((1-s) + (1-t))),
      mul_nonneg (sub_nonneg.2 hst) (sq_nonneg ((1-s) - (1-t)))]

theorem ease_in_out_nonneg {t : ℚ} (h0 : 0 ≤ t) (h1 : t ≤ 1) :
    0 ≤ ease_in_out t := by
  have := ease_in_out_mono (le_refl 0) h0 h1
  rwa [ease_in_out_zero] at this

theorem ease_in_out_le_one {t : ℚ} (h0 : 0 ≤ t) (h1 : t ≤ 1) :
    ease_in_out t ≤ 1 := by
  have := ease_in_out_mono h0 h1 (le_refl 1)
  rwa [ease_in_out_one] at this

theorem ease_in_out_symm {t : ℚ} (h0 : 0 ≤ t) (h1 : t ≤ 1) :
    ease_in_out (1 - t) = 1 - ease_in_out t := by
  unfold ease_in_out
  split_ifs with h2 h3 h3
  · linarith
  · ring
  · ring
  · have ht : t = 1/2 := by linarith
    subst ht
    norm_num

/-- C7: the cubic ease-in-out function satisfies ease(0) = 0, ease(1) = 1,
is monotonically nondecreasing on [0, 1], and is symmetric around 0.5:
ease(1 - t) = 1 - ease(t) for every t in [0, 1]. -/
theorem C7_ease_in_out_spec :
    ease_in_out 0 = 0 ∧ ease_in_out 1 = 1
    ∧ (∀ s t : ℚ, 0 ≤ s → s ≤ t → t ≤ 1 → ease_in_out s ≤ ease_in_out t)
    ∧ (∀ t : ℚ, 0 ≤ t → t ≤ 1 → ease_in_out (1 - t) = 1 - ease_in_out t) :=
  ⟨ease_in_out_zero, ease_in_out_one,
   fun _ _ hs hst ht => ease_in_out_mono hs hst ht,
   fun _ h0 h1 => ease_in_out_symm h0 h1⟩

/-- Witness for C7 at concrete inputs 1/4 and 3/4. -/
theorem C7_ease_in_out_spec_witness :
    ((0:ℚ) ≤ 1/4 ∧ (1/4:ℚ) ≤ 3/4 ∧ (3/4:ℚ) ≤ 1)
    ∧ ease_in_out (1/4) ≤ ease_in_out (3/4)
    ∧ ease_in_out (1 - 1/4) = 1 - ease_in_out (1/4) :=
  ⟨⟨by norm_num, by norm_num, by norm_num⟩,
   C7_ease_in_out_spec.2.2.1 (1/4) (3/4) (by norm_num) (by norm_num) (by norm_num),
   C7_ease_in_out_spec.2.2.2 (1/4) (by norm_num) (by norm_num)⟩

/- ── Data model (script.json shape, §3 of the spec) ─────────────────── -/

/-- One scene record of the script document: integer scene_id, narration
text, optional effect name (default slow_zoom_in applied at use sites). -/
structure Scene where
  scene_id : ℕ
  narration : String
  effect : Option String
deriving DecidableEq

/-- The script document: title plus ordered scene list. -/
structure Script where
  title : String
  scenes : List Scene
deriving DecidableEq

/-- The audio directory, abstracted: maps a scene id and a file extension
to the measured duration of that file when it exists. -/
def AudioDir : Type := ℕ → String → Option ℚ

/- ── Whitespace word splitting (Python str.split with no argument) ──── -/

/-- Accumulator pass of whitespace splitting: collects maximal runs of
non-whitespace characters, dropping empty chunks, exactly as the Python
str.split() used by the word counters and text wrappers. -/
def splitWsAux : List Char → List Char → List (List Char)
  | [], cur => if cur = [] then [] else [cur]
  | c :: cs, cur =>
    if c.isWhitespace then
      (if cur = [] then splitWsAux cs [] else cur :: splitWsAux cs [])
    else
      splitWsAux cs (cur ++ [c])

/-- Split a character list on whitespace runs, dropping empties. -/
def splitWs (l : List Char) : List (List Char) := splitWsAux l []

/-- Word count of a narration string: len(text.split()) in the source. -/
def wordCount (s : String) : ℕ := (splitWs s.toList).length

/- ── DurationPlanner (stage5_video_assembler.py) ────────────────────── -/

/-- The per-scene audio probe of get_scene_durations: the first existing
file among scene_XX.wav, scene_XX.mp3, scene_XX.ogg wins. -/
def firstAudio (audio : AudioDir) (sid : ℕ) : Option ℚ :=
  match audio sid ".wav" with
  | some d => some d
  | none =>
    match audio sid ".mp3" with
    | some d => some d
    | none => audio sid ".ogg"

/-- Per-scene duration: measured audio duration when a per-scene file
exists, otherwise max(3.0, word_count / 3.0). -/
def sceneDuration (audio : AudioDir) (scene : Scene) : ℚ :=
  match firstAudio audio scene.scene_id with
  | some d => d
  | none => max 3 ((wordCount scene.narration : ℚ) / 3)

/-- get_scene_durations: the scene_id keyed duration map, as an ordered
association list following scene order. -/
def get_scene_durations (script : Script) (audio : AudioDir) : List (ℕ × ℚ) :=
  script.scenes.map fun sc => (sc.scene_id, sceneDuration audio sc)

/-- Total of a duration map: sum(durations.values()). -/
def durTotal (ds : List (ℕ × ℚ)) : ℚ := (ds.map Prod.snd).sum

/-- The budget-fitting step of assemble_video: if the total exceeds
MAX_DURATION, multiply every duration by MAX_DURATION / total. -/
def scaleDurations (ds : List (ℕ × ℚ)) : List (ℕ × ℚ) :=
  if MAX_DURATION < durTotal ds then
    ds.map fun kv => (kv.1, kv.2 * (MAX_DURATION / durTotal ds))
  else ds

theorem durTotal_map_scale (ds : List (ℕ × ℚ)) (s : ℚ) :
    durTotal (ds.map fun kv => (kv.1, kv.2 * s)) = durTotal ds * s := by
  induction ds with
  | nil => simp [durTotal]
  | cons kv rest ih =>
    simp only [List.map_cons, durTotal, List.sum_cons] at *
    rw [ih]
    ring

theorem durTotal_scaleDurations_le (ds : List (ℕ × ℚ)) :
    durTotal (scaleDurations ds) ≤ MAX_DURATION := by
  unfold scaleDurations
  split_ifs with h
  · rw [durTotal_map_scale]
    have hpos : 0 < durTotal ds := lt_trans (by norm_num [MAX_DURATION]) h
    rw [mul_div_assoc']
    rw [mul_comm, mul_div_assoc, div_self (ne_of_gt hpos), mul_one]
  · linarith

theorem durTotal_scaleDurations_eq (ds : List (ℕ × ℚ))
    (h : MAX_DURATION < durTotal ds) :
    durTotal (scaleDurations ds) = MAX_DURATION := by
  unfold scaleDurations
  rw [if_pos h, durTotal_map_scale]
  have hpos : 0 < durTotal ds := lt_trans (by norm_num [MAX_DURATION]) h
  rw [mul_div_assoc']
  rw [mul_comm, mul_div_assoc, div_self (ne_of_gt hpos), mul_one]

/-- C1: budget-fitting.  When the measured-or-estimated total is within
MAX_DURATION the planner returns every duration unchanged; when it exceeds
MAX_DURATION every duration is multiplied by MAX_DURATION / total, the
resulting total is exactly MAX_DURATION (hence at most MAX_DURATION plus
any tolerance), pairwise ratios are preserved, and no 3 second floor is
re-applied: a concrete over-budget script has a scaled duration below 3. -/
theorem C1_budget_fitting (ds : List (ℕ × ℚ)) :
    (durTotal ds ≤ MAX_DURATION → scaleDurations ds = ds)
    ∧ (MAX_DURATION < durTotal ds →
        scaleDurations ds = ds.map (fun kv => (kv.1, kv.2 * (MAX_DURATION / durTotal ds)))
        ∧ durTotal (scaleDurations ds) = MAX_DURATION
        ∧ ∀ di dj : ℚ, dj ≠ 0 →
            di * (MAX_DURATION / durTotal ds) / (dj * (MAX_DURATION / durTotal ds)) = di / dj)
    ∧ durTotal (scaleDurations ds) ≤ MAX_DURATION
    ∧ ∃ p ∈ scaleDurations [(1, 3), (2, 300)], p.2 < 3 := by
  refine ⟨?_, ?_, durTotal_scaleDurations_le ds, ?_⟩
  · intro h
    unfold scaleDurations
    rw [if_neg (not_lt.2 h)]
  · intro h
    have hpos : 0 < durTotal ds := lt_trans (by norm_num [MAX_DURATION]) h
    refine ⟨by unfold scaleDurations; rw [if_pos h], durTotal_scaleDurations_eq ds h, ?_⟩
    intro di dj hdj
    have hs : MAX_DURATION / durTotal ds ≠ 0 := by
      apply div_ne_zero
      · norm_num [MAX_DURATION]
      · exact ne_of_gt hpos
    rw [mul_div_mul_right _ _ hs]
  · refine ⟨(1, 3 * (MAX_DURATION / durTotal [(1, 3), (2, 300)])), ?_, ?_⟩
    · unfold scaleDurations
      rw [if_pos (by norm_num [durTotal, MAX_DURATION])]
      simp
    · norm_num [durTotal, MAX_DURATION]

/-- Witness for C1 at the concrete over-budget input [(1, 80), (2, 80)]. -/
theorem C1_budget_fitting_witness :
    MAX_DURATION < durTotal [(1, (80:ℚ)), (2, 80)]
    ∧ durTotal (scaleDurations [(1, (80:ℚ)), (2, 80)]) = MAX_DURATION :=
  ⟨by norm_num [durTotal, MAX_DURATION],
   ((C1_budget_fitting [(1, 80), (2, 80)]).2.1
     (by norm_num [durTotal, MAX_DURATION])).2.1⟩

/-- C2: for a scene with no per-scene audio file, the planner estimates
max(3.0, word_count(narration) / 3.0) where word_count splits the
narration on whitespace; the 7-word example narration yields exactly 3. -/
theorem C2_estimated_duration (script : Script) (audio : AudioDir) (sc : Scene)
    (hmem : sc ∈ script.scenes)
    (hno : firstAudio audio sc.scene_id = none) :
    sceneDuration audio sc = max 3 ((wordCount sc.narration : ℚ) / 3)
    ∧ (sc.scene_id, max 3 ((wordCount sc.narration : ℚ) / 3)) ∈ get_scene_durations script audio
    ∧ wordCount "Peter swings through the city at dawn." = 7
    ∧ (wordCount sc.narration = 7 → sceneDuration audio sc = 3) := by
  have hdur : sceneDuration audio sc = max 3 ((wordCount sc.narration : ℚ) / 3) := by
    unfold sceneDuration
    rw [hno]
  refine ⟨hdur, ?_, by decide, ?_⟩
  · rw [← hdur]
    exact List.mem_map.2 ⟨sc, hmem, rfl⟩
  · intro h7
    rw [hdur, h7]
    norm_num

/-- Witness for C2: a one-scene script whose scene is the 7-word example
narration with no audio at all; its planned duration is exactly 3. -/
theorem C2_estimated_duration_witness :
    sceneDuration (fun _ _ => none) ⟨1, "Peter swings through the city at dawn.", none⟩ = 3 :=
  (C2_estimated_duration
    ⟨"t", [⟨1, "Peter swings through the city at dawn.", none⟩]⟩
    (fun _ _ => none)
    ⟨1, "Peter swings through the city at dawn.", none⟩
    (by simp) rfl).2.2.2 (by decide)

/- ── KenBurnsRenderer frame geometry (utils/kenburns.py) ────────────── -/

/-- Python int() applied to a rational: truncation toward zero. -/
def pyInt (q : ℚ) : ℤ := if q < 0 then ⌈q⌉ else ⌊q⌋

/-- The oversampled dimension: int(d * 1.3) in apply_kenburns. -/
def oversizedDim (d : ℕ) : ℕ := (pyInt ((d : ℚ) * (13/10))).toNat

/-- The per-effect zoom factor and crop-window center computed by
make_frame from the eased progress p, the oversized dimensions and the
zoom range.  The final branch is the static / unrecognized-effect case. -/
def zoomCenter (effect : String) (zr : ℚ × ℚ) (ow oh : ℕ) (p : ℚ) : ℚ × ℚ × ℚ :=
  if effect = "slow_zoom_in" then
    (zr.1 + (zr.2 - zr.1) * p, (ow : ℚ) / 2, (oh : ℚ) / 2)
  else if effect = "slow_zoom_out" then
    (zr.2 - (zr.2 - zr.1) * p, (ow : ℚ) / 2, (oh : ℚ) / 2)
  else if effect = "pan_left" then
    ((zr.1 + zr.2) / 2, (ow : ℚ) / 2 + ((ow : ℚ) * (8/100)) * (1 - p), (oh : ℚ) / 2)
  else if effect = "pan_right" then
    ((zr.1 + zr.2) / 2, (ow : ℚ) / 2 - ((ow : ℚ) * (8/100)) * (1 - p), (oh : ℚ) / 2)
  else if effect = "pan_up" then
    ((zr.1 + zr.2) / 2, (ow : ℚ) / 2, (oh : ℚ) / 2 + ((oh : ℚ) * (8/100)) * (1 - p))
  else if effect = "pan_down" then
    ((zr.1 + zr.2) / 2, (ow : ℚ) / 2, (oh : ℚ) / 2 - ((oh : ℚ) * (8/100)) * (1 - p))
  else
    (105/100, (ow : ℚ) / 2, (oh : ℚ) / 2)

/-- The geometry one frame of make_frame produces: top-left and
bottom-right corners of the crop window in the oversized image, and the
size the cropped area is resized to. -/
structure FrameGeom where
  x1 : ℤ
  y1 : ℤ
  x2 : ℤ
  y2 : ℤ
  outSize : ℕ × ℕ
deriving DecidableEq

/-- Embedding of make_frame in apply_kenburns: normalized, eased progress;
per-effect zoom and center; crop window size int(w/zoom) by int(h/zoom);
top-left corner clamped into the oversized image; resize target (w, h). -/
def make_frame (effect : String) (zoom_range : ℚ × ℚ) (w h : ℕ)
    (duration t : ℚ) : FrameGeom :=
  let ow := oversizedDim w
  let oh := oversizedDim h
  let progress := t / max duration (1/1000)
  let p := ease_in_out progress
  let zcc := zoomCenter effect zoom_range ow oh p
  let zoom := zcc.1
  let cx := zcc.2.1
  let cy := zcc.2.2
  let crop_w : ℤ := pyInt ((w : ℚ) / zoom)
  let crop_h : ℤ := pyInt ((h : ℚ) / zoom)
  let x1 : ℤ := pyInt (max 0 (min (cx - (crop_w : ℚ) / 2) ((ow : ℚ) - (crop_w : ℚ))))
  let y1 : ℤ := pyInt (max 0 (min (cy - (crop_h : ℚ) / 2) ((oh : ℚ) - (crop_h : ℚ))))
  ⟨x1, y1, x1 + crop_w, y1 + crop_h, (w, h)⟩

theorem pyInt_of_nonneg {q : ℚ} (h : 0 ≤ q) : pyInt q = ⌊q⌋ := by
  unfold pyInt
  rw [if_neg (not_lt.2 h)]

theorem oversizedDim_ge (d : ℕ) : d ≤ oversizedDim d := by
  unfold oversizedDim
  rw [pyInt_of_nonneg (by positivity)]
  have h1 : (d : ℤ) ≤ ⌊(d : ℚ) * (13/10)⌋ := by
    rw [Int.le_floor]
    push_cast
    nlinarith [Nat.cast_nonneg (α := ℚ) d]
  omega

theorem zoomCenter_one_le (effect : String) (zr : ℚ × ℚ) (ow oh : ℕ) (p : ℚ)
    (hz1 : 1 ≤ zr.1) (hz2 : 1 ≤ zr.2) (hp0 : 0 ≤ p) (hp1 : p ≤ 1) :
    1 ≤ (zoomCenter effect zr ow oh p).1 := by
  unfold zoomCenter
  split_ifs <;> simp only <;> nlinarith [mul_nonneg (sub_nonneg.2 hz1) hp0,
    mul_nonneg (sub_nonneg.2 hz2) (sub_nonneg.2 hp1)]

/-- Clamped one-axis crop placement: with zoom at least 1 and the
oversized dimension at least the output dimension, the clamped corner is
nonnegative and corner plus crop size stays within the oversized bound. -/
theorem clamped_axis_bounds (zoom c : ℚ) (w ow : ℕ)
    (hz : 1 ≤ zoom) (how : w ≤ ow) :
    0 ≤ pyInt (max 0 (min (c - (pyInt ((w : ℚ) / zoom) : ℚ) / 2)
        ((ow : ℚ) - (pyInt ((w : ℚ) / zoom) : ℚ)))) ∧
    pyInt (max 0 (min (c - (pyInt ((w : ℚ) / zoom) : ℚ) / 2)
        ((ow : ℚ) - (pyInt ((w : ℚ) / zoom) : ℚ)))) + pyInt ((w : ℚ) / zoom) ≤ (ow : ℤ) := by
  have hzpos : (0:ℚ) < zoom := lt_of_lt_of_le one_pos hz
  have hdivnn : (0:ℚ) ≤ (w : ℚ) / zoom := by positivity
  have hcw : pyInt ((w : ℚ) / zoom) = ⌊(w : ℚ) / zoom⌋ := pyInt_of_nonneg hdivnn
  have hcw_le : pyInt ((w : ℚ) / zoom) ≤ (w : ℤ) := by
    rw [hcw]
    calc ⌊(w : ℚ) / zoom⌋ ≤ ⌊(w : ℚ)⌋ := by
          apply Int.floor_le_floor
          rw [div_le_iff₀ hzpos]
          nlinarith [Nat.cast_nonneg (α := ℚ) w]
      _ = (w : ℤ) := Int.floor_natCast w
  have hcw_le_ow : pyInt ((w : ℚ) / zoom) ≤ (ow : ℤ) := le_trans hcw_le (by exact_mod_cast how)
  have hargnn : (0:ℚ) ≤ max 0 (min (c - (pyInt ((w : ℚ) / zoom) : ℚ) / 2)
      ((ow : ℚ) - (pyInt ((w : ℚ) / zoom) : ℚ))) := le_max_left 0 _
  constructor
  · rw [pyInt_of_nonneg hargnn]
    rw [Int.le_floor]
    exact_mod_cast hargnn
  · rw [pyInt_of_nonneg hargnn]
    have harg_le : max 0 (min (c - (pyInt ((w : ℚ) / zoom) : ℚ) / 2)
        ((ow : ℚ) - (pyInt ((w : ℚ) / zoom) : ℚ))) ≤ (ow : ℚ) - (pyInt ((w : ℚ) / zoom) : ℚ) := by
      apply max_le
      · rw [sub_nonneg]
        exact_mod_cast hcw_le_ow
      · exact min_le_right _ _
    have hfl : ⌊max 0 (min (c - (pyInt ((w : ℚ) / zoom) : ℚ) / 2)
        ((ow : ℚ) - (pyInt ((w : ℚ) / zoom) : ℚ)))⌋ ≤ (ow : ℤ) - pyInt ((w : ℚ) / zoom) := by
      calc ⌊max 0 (min (c - (pyInt ((w : ℚ) / zoom) : ℚ) / 2)
              ((ow : ℚ) - (pyInt ((w : ℚ) / zoom) : ℚ)))⌋
          ≤ ⌊(ow : ℚ) - (pyInt ((w : ℚ) / zoom) : ℚ)⌋ := Int.floor_le_floor harg_le
        _ = (ow : ℤ) - pyInt ((w : ℚ) / zoom) := by
            rw [show (ow : ℚ) - (pyInt ((w : ℚ) / zoom) : ℚ)
                  = (((ow : ℤ) - pyInt ((w : ℚ) / zoom) : ℤ) : ℚ) by push_cast; ring]
            exact Int.floor_intCast _
    omega

theorem progress_mem_unit {duration t : ℚ} (ht0 : 0 ≤ t) (htd : t ≤ duration) :
    0 ≤ t / max duration (1/1000) ∧ t / max duration (1/1000) ≤ 1 := by
  have hden : (0:ℚ) < max duration (1/1000) :=
    lt_of_lt_of_le (by norm_num) (le_max_right duration (1/1000))
  constructor
  · positivity
  · rw [div_le_one hden]
    exact le_trans htd (le_max_left _ _)

/-- C3: for every effect string, every zoom range with both endpoints at
least 1, and every frame time t in [0, duration], the crop window of
make_frame stays inside the oversized image (0 ≤ x1, x2 ≤ oversized
width, 0 ≤ y1, y2 ≤ oversized height) and the frame is resized to exactly
the requested output size (w, h). -/
theorem C3_kenburns_crop_in_bounds (effect : String) (zr : ℚ × ℚ) (w h : ℕ)
    (duration t : ℚ)
    (hz1 : 1 ≤ zr.1) (hz2 : 1 ≤ zr.2) (ht0 : 0 ≤ t) (htd : t ≤ duration) :
    0 ≤ (make_frame effect zr w h duration t).x1
    ∧ (make_frame effect zr w h duration t).x2 ≤ (oversizedDim w : ℤ)
    ∧ 0 ≤ (make_frame effect zr w h duration t).y1
    ∧ (make_frame effect zr w h duration t).y2 ≤ (oversizedDim h : ℤ)
    ∧ (make_frame effect zr w h duration t).outSize = (w, h) := by
  obtain ⟨hp0, hp1⟩ := progress_mem_unit ht0 htd
  have he0 : 0 ≤ ease_in_out (t / max duration (1/1000)) := ease_in_out_nonneg hp0 hp1
  have he1 : ease_in_out (t / max duration (1/1000)) ≤ 1 := ease_in_out_le_one hp0 hp1
  have hzoom : 1 ≤ (zoomCenter effect zr (oversizedDim w) (oversizedDim h)
      (ease_in_out (t / max duration (1/1000)))).1 :=
    zoomCenter_one_le effect zr _ _ _ hz1 hz2 he0 he1
  have hx := clamped_axis_bounds
    (zoomCenter effect zr (oversizedDim w) (oversizedDim h)
      (ease_in_out (t / max duration (1/1000)))).1
    (zoomCenter effect zr (oversizedDim w) (oversizedDim h)
      (ease_in_out (t / max duration (1/1000)))).2.1
    w (oversizedDim w) hzoom (oversizedDim_ge w)
  have hy := clamped_axis_bounds
    (zoomCenter effect zr (oversizedDim w) (oversizedDim h)
      (ease_in_out (t / max duration (1/1000)))).1
    (zoomCenter effect zr (oversizedDim w) (oversizedDim h)
      (ease_in_out (t / max duration (1/1000)))).2.2
    h (oversizedDim h) hzoom (oversizedDim_ge h)
  unfold make_frame
  exact ⟨hx.1, hx.2, hy.1, hy.2, rfl⟩

/-- Witness for C3: the pan_left effect with zoom range (1, 1.15) on a
1920 by 1080 target, a 5 second scene sampled at t = 2. -/
theorem C3_kenburns_crop_in_bounds_witness :
    0 ≤ (make_frame "pan_left" (1, 23/20) 1920 1080 5 2).x1
    ∧ (make_frame "pan_left" (1, 23/20) 1920 1080 5 2).x2 ≤ (oversizedDim 1920 : ℤ)
    ∧ 0 ≤ (make_frame "pan_left" (1, 23/20) 1920 1080 5 2).y1
    ∧ (make_frame "pan_left" (1, 23/20) 1920 1080 5 2).y2 ≤ (oversizedDim 1080 : ℤ)
    ∧ (make_frame "pan_left" (1, 23/20) 1920 1080 5 2).outSize = (1920, 1080) :=
  C3_kenburns_crop_in_bounds "pan_left" (1, 23/20) 1920 1080 5 2
    (by norm_num) (by norm_num) (by norm_num) (by norm_num)

/-- C10: every effect string outside the six named effects takes the
final (static) branch of make_frame: zoom held at 1.05 centered on the
oversized image, frame geometry independent of the frame time (no
motion), and equal to the geometry of the static effect. -/
theorem C10_unknown_effect_is_static (effect : String)
    (hne : effect ∉ ["slow_zoom_in", "slow_zoom_out", "pan_left",
      "pan_right", "pan_up", "pan_down"])
    (zr : ℚ × ℚ) (w h : ℕ) (duration t u : ℚ) :
    make_frame effect zr w h duration t = make_frame "static" zr w h duration t
    ∧ make_frame effect zr w h duration t = make_frame effect zr w h duration u
    ∧ (∀ ow oh : ℕ, ∀ p : ℚ,
        zoomCenter effect zr ow oh p = (105/100, (ow : ℚ) / 2, (oh : ℚ) / 2)) := by
  simp only [List.mem_cons, List.mem_singleton, not_or] at hne
  obtain ⟨h1, h2, h3, h4, h5, h6, -⟩ := hne
  have hzc : ∀ ow oh : ℕ, ∀ p : ℚ,
      zoomCenter effect zr ow oh p = (105/100, (ow : ℚ) / 2, (oh : ℚ) / 2) := by
    intro ow oh p
    unfold zoomCenter
    rw [if_neg h1, if_neg h2, if_neg h3, if_neg h4, if_neg h5, if_neg h6]
  have hzs : ∀ ow oh : ℕ, ∀ p : ℚ,
      zoomCenter "static" zr ow oh p = (105/100, (ow : ℚ) / 2, (oh : ℚ) / 2) := by
    intro ow oh p
    rfl
  refine ⟨?_, ?_, hzc⟩
  · simp only [make_frame, hzc, hzs]
  · simp only [make_frame, hzc]

/-- Witness for C10 at the concrete unrecognized effect name zoom_fast. -/
theorem C10_unknown_effect_is_static_witness :
    make_frame "zoom_fast" (1, 23/20) 1920 1080 5 2
      = make_frame "static" (1, 23/20) 1920 1080 5 2
    ∧ make_frame "zoom_fast" (1, 23/20) 1920 1080 5 2
      = make_frame "zoom_fast" (1, 23/20) 1920 1080 5 4 :=
  ⟨(C10_unknown_effect_is_static "zoom_fast" (by decide) (1, 23/20) 1920 1080 5 2 4).1,
   (C10_unknown_effect_is_static "zoom_fast" (by decide) (1, 23/20) 1920 1080 5 2 4).2.1⟩

/- ── Greedy word wrap (stage5 _wrap_text / srt _wrap_subtitle_text) ─── -/

/-- Join chunks with a single separator character, as str.join does. -/
def joinSep (sep : Char) : List (List Char) → List Char
  | [] => []
  | [w] => w
  | w :: ws => w ++ sep :: joinSep sep ws

/-- The greedy line builder shared by both wrappers: walk the words with
the running list of lines, the current line and its length counter; break
before a word that would push the counter past max_chars when the current
line is nonempty. -/
def wrapLines (max_chars : ℕ) : List (List Char) → List (List Char) → ℕ → List (List (List Char))
  | [], cur, _ => if cur = [] then [] else [cur]
  | w :: ws, cur, length =>
    if max_chars < length + w.length + 1 ∧ cur ≠ [] then
      cur :: wrapLines max_chars ws [w] w.length
    else
      wrapLines max_chars ws (cur ++ [w]) (length + w.length + 1)

/-- The wrap_text helper of stage5_video_assembler.py: split on
whitespace, group greedily, join lines with spaces and newlines. -/
def wrap_text (text : String) (max_chars : ℕ) : List Char :=
  joinSep '\n' ((wrapLines max_chars (splitWs text.toList) [] 0).map (joinSep ' '))

/-- The wrap_subtitle_text helper of srt_generator.py: the identical
greedy algorithm. -/
def wrap_subtitle_text (text : String) (max_chars : ℕ) : List Char :=
  joinSep '\n' ((wrapLines max_chars (splitWs text.toList) [] 0).map (joinSep ' '))

/- ── SubtitleTimeline overlay cues (build_subtitle_clips) ───────────── -/

/-- durations.get(sid, default) on the scene_id keyed duration map. -/
def lookupDur (ds : List (ℕ × ℚ)) (sid : ℕ) (dflt : ℚ) : ℚ :=
  match ds.find? (fun kv => kv.1 == sid) with
  | some kv => kv.2
  | none => dflt

/-- One burned-in subtitle overlay: wrapped text, start time and
displayed duration of the TextClip. -/
structure SubtitleClip where
  text : List Char
  start : ℚ
  duration : ℚ
deriving DecidableEq

/-- The loop of build_subtitle_clips: each scene contributes a cue whose
text is the narration wrapped at 50 characters, whose start is the
running time plus 0.1 and whose displayed duration is the scene duration
minus 0.2; the running time advances by the full scene duration. -/
def buildCues (durations : List (ℕ × ℚ)) : List Scene → ℚ → List SubtitleClip
  | [], _ => []
  | sc :: rest, current_time =>
    ⟨wrap_text sc.narration 50, current_time + 1/10,
      lookupDur durations sc.scene_id 5 - 1/5⟩
      :: buildCues durations rest (current_time + lookupDur durations sc.scene_id 5)

/-- build_subtitle_clips of stage5_video_assembler.py. -/
def build_subtitle_clips (script : Script) (durations : List (ℕ × ℚ)) : List SubtitleClip :=
  buildCues durations script.scenes 0

/-- Nominal (cumulative) start of scene i: the sum of the durations of
the scenes before it. -/
def cumStart (durations : List (ℕ × ℚ)) (scenes : List Scene) (i : ℕ) : ℚ :=
  ((scenes.take i).map (fun sc => lookupDur durations sc.scene_id 5)).sum

theorem buildCues_getElem (ds : List (ℕ × ℚ)) :
    ∀ (scenes : List Scene) (cur : ℚ) (i : ℕ) (sc : Scene),
      scenes[i]? = some sc →
      (buildCues ds scenes cur)[i]? =
        some ⟨wrap_text sc.narration 50, cur + cumStart ds scenes i + 1/10,
          lookupDur ds sc.scene_id 5 - 1/5⟩ := by
  intro scenes
  induction scenes with
  | nil => intro cur i sc h; simp at h
  | cons sc0 rest ih =>
    intro cur i sc h
    match i with
    | 0 =>
      simp only [List.getElem?_cons_zero, Option.some_inj] at h
      subst h
      simp [buildCues, cumStart]
    | Nat.succ j =>
      simp only [List.getElem?_cons_succ] at h
      have := ih (cur + lookupDur ds sc0.scene_id 5) j sc h
      simp only [buildCues, List.getElem?_cons_succ]
      rw [this]
      have hcs : cumStart ds (sc0 :: rest) (j + 1)
          = lookupDur ds sc0.scene_id 5 + cumStart ds rest j := by
        simp [cumStart, List.take_succ_cons]
      rw [hcs]
      ring_nf

theorem buildCues_chain (ds : List (ℕ × ℚ)) :
    ∀ (scenes : List Scene) (cur : ℚ),
      List.Chain' (fun a b => a.start + a.duration ≤ b.start) (buildCues ds scenes cur) := by
  intro scenes
  induction scenes with
  | nil => intro cur; simp [buildCues]
  | cons sc0 rest ih =>
    intro cur
    match rest with
    | [] => simp [buildCues]
    | sc1 :: rest1 =>
      simp only [buildCues, List.chain'_cons]
      refine ⟨by linarith, ?_⟩
      have := ih (cur + lookupDur ds sc0.scene_id 5)
      simpa [buildCues] using this

/-- C4: every burned-in cue starts 0.1 seconds after the cumulative start
of its scene and is displayed for the scene duration minus 0.2 seconds,
so consecutive cues never overlap: each cue ends no later than the next
one starts. -/
theorem C4_subtitle_cue_timing (script : Script) (ds : List (ℕ × ℚ)) :
    (∀ (i : ℕ) (sc : Scene), script.scenes[i]? = some sc →
      (build_subtitle_clips script ds)[i]? =
        some ⟨wrap_text sc.narration 50, cumStart ds script.scenes i + 1/10,
          lookupDur ds sc.scene_id 5 - 1/5⟩)
    ∧ List.Chain' (fun a b => a.start + a.duration ≤ b.start)
        (build_subtitle_clips script ds) := by
  constructor
  · intro i sc h
    have := buildCues_getElem ds script.scenes 0 i sc h
    rw [build_subtitle_clips, this]
    ring_nf
  · exact buildCues_chain ds script.scenes 0

/-- Witness for C4: a concrete two-scene script with durations 4 and 6. -/
theorem C4_subtitle_cue_timing_witness :
    (build_subtitle_clips ⟨"t", [⟨1, "a", none⟩, ⟨2, "b", none⟩]⟩ [(1, 4), (2, 6)])[1]? =
      some ⟨wrap_text "b" 50,
        cumStart [(1, 4), (2, 6)] [⟨1, "a", none⟩, ⟨2, "b", none⟩] 1 + 1/10,
        lookupDur [(1, 4), (2, 6)] 2 5 - 1/5⟩ :=
  (C4_subtitle_cue_timing ⟨"t", [⟨1, "a", none⟩, ⟨2, "b", none⟩]⟩ [(1, 4), (2, 6)]).1
    1 ⟨2, "b", none⟩ rfl

/- ── AudioComposer background music (assemble_video, step 4) ────────── -/

/-- The audio operations moviepy applies to the background music clip, in
the order the source applies them. -/
inductive AudioOp where
  | loop (n : ℕ)
  | subclip (a b : ℚ)
  | volumex (gain : ℚ)
  | fadein (d : ℚ)
  | fadeout (d : ℚ)
deriving DecidableEq

/-- Effect of one audio operation on a clip duration: concatenating n
copies multiplies it by n, subclip(a, b) gives b - a, gain and fades
leave it unchanged. -/
def opDuration (d : ℚ) : AudioOp → ℚ
  | AudioOp.loop n => n * d
  | AudioOp.subclip a b => b - a
  | AudioOp.volumex _ => d
  | AudioOp.fadein _ => d
  | AudioOp.fadeout _ => d

/-- The operation list of assemble_video step 4 for a background-music
clip of duration bgmDur against a video of duration videoDur: loop when
shorter (int(video/bgm) + 1 copies), trim to the video length, then
volume gain, fade in and fade out. -/
def bgmOps (bgmDur videoDur : ℚ) : List AudioOp :=
  (if bgmDur < videoDur then [AudioOp.loop ((pyInt (videoDur / bgmDur)).toNat + 1)] else [])
    ++ [AudioOp.subclip 0 videoDur, AudioOp.volumex BGM_VOLUME,
        AudioOp.fadein AUDIO_FADE_IN, AudioOp.fadeout AUDIO_FADE_OUT]

/-- Duration of the background-music track after all operations. -/
def finalBgmDuration (bgmDur videoDur : ℚ) : ℚ :=
  (bgmOps bgmDur videoDur).foldl opDuration bgmDur

/-- C5: when the background music is shorter than the video it is
repeated floor(video/bgm) + 1 times, a count whose total length is at
least (indeed strictly more than) the video duration; it is then
truncated so its duration equals the video duration exactly, and the
volume gain and both fades come after the loop and the truncation in the
operation order. -/
theorem C5_bgm_looping (bgmDur videoDur : ℚ)
    (hb : 0 < bgmDur) (hshort : bgmDur < videoDur) :
    bgmOps bgmDur videoDur =
      [AudioOp.loop ((⌊videoDur / bgmDur⌋).toNat + 1), AudioOp.subclip 0 videoDur,
       AudioOp.volumex BGM_VOLUME, AudioOp.fadein AUDIO_FADE_IN, AudioOp.fadeout AUDIO_FADE_OUT]
    ∧ videoDur ≤ ((⌊videoDur / bgmDur⌋).toNat + 1 : ℚ) * bgmDur
    ∧ finalBgmDuration bgmDur videoDur = videoDur := by
  have hdiv : (0:ℚ) ≤ videoDur / bgmDur := le_of_lt (div_pos (lt_trans hb hshort) hb)
  have hfl : pyInt (videoDur / bgmDur) = ⌊videoDur / bgmDur⌋ := pyInt_of_nonneg hdiv
  have hops : bgmOps bgmDur videoDur =
      [AudioOp.loop ((⌊videoDur / bgmDur⌋).toNat + 1), AudioOp.subclip 0 videoDur,
       AudioOp.volumex BGM_VOLUME, AudioOp.fadein AUDIO_FADE_IN, AudioOp.fadeout AUDIO_FADE_OUT] := by
    unfold bgmOps
    rw [if_pos hshort, hfl]
    rfl
  refine ⟨hops, ?_, ?_⟩
  · have hfloor0 : (0:ℤ) ≤ ⌊videoDur / bgmDur⌋ := Int.floor_nonneg.2 hdiv
    have hlt : videoDur / bgmDur < (⌊videoDur / bgmDur⌋ : ℚ) + 1 := Int.lt_floor_add_one _
    have hcast : ((⌊videoDur / bgmDur⌋).toNat + 1 : ℚ) = (⌊videoDur / bgmDur⌋ : ℚ) + 1 := by
      rw [show ((⌊videoDur / bgmDur⌋).toNat : ℚ) = ((⌊videoDur / bgmDur⌋ : ℤ) : ℚ) by
        exact_mod_cast congrArg (fun z : ℤ => (z : ℚ)) (Int.toNat_of_nonneg hfloor0)]
    rw [hcast]
    have := (div_lt_iff₀ hb).1 hlt
    linarith
  · unfold finalBgmDuration
    rw [hops]
    simp [opDuration]

/-- Witness for C5 with a 2 second music file and a 5 second video. -/
theorem C5_bgm_looping_witness :
    (0:ℚ) < 2 ∧ (2:ℚ) < 5 ∧ finalBgmDuration 2 5 = 5 :=
  ⟨by norm_num, by norm_num, (C5_bgm_looping 2 5 (by norm_num) (by norm_num)).2.2⟩

/- ── Scene clip construction (assemble_video, step 2) ───────────────── -/

/-- A rendered scene clip: either a solid black ColorClip of a given size
and duration, or a Ken Burns clip rendered from an image. -/
inductive Clip where
  | black (size : ℕ × ℕ) (duration : ℚ)
  | kenburns (image : String) (effect : String) (size : ℕ × ℕ) (fps : ℕ) (duration : ℚ)
deriving DecidableEq

/-- The duration map assemble_video hands to every downstream consumer:
the planner output after budget-fitting. -/
def plannedDurations (script : Script) (audio : AudioDir) : List (ℕ × ℚ) :=
  scaleDurations (get_scene_durations script audio)

/-- Step 2 of assemble_video: one clip per scene in scene order; a
missing image yields a black ColorClip of the output size with that
scene's planned duration, a present one a Ken Burns clip. -/
def sceneClips (script : Script) (audio : AudioDir) (images : ℕ → Bool) : List Clip :=
  script.scenes.map fun sc =>
    if images sc.scene_id then
      Clip.kenburns ("scene_" ++ toString sc.scene_id ++ ".jpg")
        (sc.effect.getD "slow_zoom_in") (VIDEO_WIDTH, VIDEO_HEIGHT) VIDEO_FPS
        (lookupDur (plannedDurations script audio) sc.scene_id 0)
    else
      Clip.black (VIDEO_WIDTH, VIDEO_HEIGHT)
        (lookupDur (plannedDurations script audio) sc.scene_id 0)

theorem lookupDur_eq_of_mem {ds : List (ℕ × ℚ)} {k : ℕ} {v : ℚ} (dflt : ℚ)
    (hnodup : (ds.map Prod.fst).Nodup) (hmem : (k, v) ∈ ds) :
    lookupDur ds k dflt = v := by
  induction ds with
  | nil => simp at hmem
  | cons kv rest ih =>
    simp only [List.map_cons, List.nodup_cons] at hnodup
    rcases List.mem_cons.1 hmem with heq | htail
    · subst heq
      simp [lookupDur, List.find?_cons]
    · have hk : (kv.1 == k) = false := by
        simp only [beq_eq_false_iff_ne, ne_eq]
        intro hkk
        apply hnodup.1
        rw [hkk]
        exact List.mem_map.2 ⟨(k, v), htail, rfl⟩
      have h2 := ih hnodup.2 htail
      simpa [lookupDur, List.find?_cons, hk] using h2

theorem scaleDurations_map_fst (ds : List (ℕ × ℚ)) :
    (scaleDurations ds).map Prod.fst = ds.map Prod.fst := by
  unfold scaleDurations
  split_ifs with h
  · rw [List.map_map]
    rfl
  · rfl

theorem plannedDurations_map_fst (script : Script) (audio : AudioDir) :
    (plannedDurations script audio).map Prod.fst = script.scenes.map Scene.scene_id := by
  unfold plannedDurations
  rw [scaleDurations_map_fst]
  unfold get_scene_durations
  rw [List.map_map]
  rfl

/-- C8: for a scene whose image is absent, assembly substitutes a solid
black clip of exactly the output size (VIDEO_WIDTH by VIDEO_HEIGHT) with
exactly that scene's planned duration, placed at the scene's position in
the concatenation order, and every scene still yields a clip (the clip
list has one entry per scene, so a missing image is never fatal). -/
theorem C8_missing_image_black_clip (script : Script) (audio : AudioDir)
    (images : ℕ → Bool) (i : ℕ) (sc : Scene) (d : ℚ)
    (hi : script.scenes[i]? = some sc)
    (hmiss : images sc.scene_id = false)
    (hnodup : (script.scenes.map Scene.scene_id).Nodup)
    (hd : (sc.scene_id, d) ∈ plannedDurations script audio) :
    (sceneClips script audio images)[i]? =
      some (Clip.black (VIDEO_WIDTH, VIDEO_HEIGHT) d)
    ∧ (sceneClips script audio images).length = script.scenes.length := by
  have hkeys : ((plannedDurations script audio).map Prod.fst).Nodup := by
    rw [plannedDurations_map_fst]
    exact hnodup
  have hlook : lookupDur (plannedDurations script audio) sc.scene_id 0 = d :=
    lookupDur_eq_of_mem 0 hkeys hd
  constructor
  · unfold sceneClips
    rw [List.getElem?_map, hi]
    simp [hmiss, hlook]
  · unfold sceneClips
    rw [List.length_map]

/-- Witness for C8: a one-scene script with no audio and no images; the
estimated duration 3 survives budget-fitting and the produced clip is the
black frame of the output size for those 3 seconds. -/
theorem C8_missing_image_black_clip_witness :
    (sceneClips ⟨"t", [⟨1, "hi", none⟩]⟩ (fun _ _ => none) (fun _ => false))[0]? =
      some (Clip.black (VIDEO_WIDTH, VIDEO_HEIGHT) 3) :=
  (C8_missing_image_black_clip ⟨"t", [⟨1, "hi", none⟩]⟩ (fun _ _ => none)
    (fun _ => false) 0 ⟨1, "hi", none⟩ 3 rfl rfl (by simp)
    (by
      have hwc : wordCount "hi" = 1 := by decide
      have : plannedDurations ⟨"t", [⟨1, "hi", none⟩]⟩ (fun _ _ => none) = [(1, 3)] := by
        norm_num [plannedDurations, scaleDurations, get_scene_durations, sceneDuration,
          firstAudio, durTotal, MAX_DURATION, hwc]
      rw [this]
      simp)).1

/- ── Word-wrap properties (claim C9 machinery) ──────────────────────── -/

/-- A word as produced by whitespace splitting: nonempty and free of
whitespace characters. -/
def goodWord (w : List Char) : Prop := w ≠ [] ∧ ∀ a ∈ w, a.isWhitespace = false

theorem splitWsAux_push (w : List Char) (hw : ∀ a ∈ w, a.isWhitespace = false) :
    ∀ (cur rest : List Char), splitWsAux (w ++ rest) cur = splitWsAux rest (cur ++ w) := by
  induction w with
  | nil => intro cur rest; simp
  | cons a w' ih =>
    intro cur rest
    have ha : a.isWhitespace = false := hw a (List.mem_cons_self a w')
    have hw' : ∀ b ∈ w', b.isWhitespace = false := fun b hb => hw b (List.mem_cons_of_mem a hb)
    simp only [List.cons_append, splitWsAux, ha, Bool.false_eq_true, if_false, List.append_eq]
    rw [ih hw' (cur ++ [a]) rest]
    simp

theorem splitWsAux_ws (c : Char) (hc : c.isWhitespace = true) (cur rest : List Char) :
    splitWsAux (c :: rest) cur =
      if cur = [] then splitWsAux rest [] else cur :: splitWsAux rest [] := by
  simp [splitWsAux, hc]

theorem splitWsAux_words_good :
    ∀ (l cur : List Char), (∀ a ∈ cur, a.isWhitespace = false) →
      ∀ w ∈ splitWsAux l cur, goodWord w := by
  intro l
  induction l with
  | nil =>
    intro cur hcur w hw
    simp only [splitWsAux] at hw
    split_ifs at hw with h
    · simp at hw
    · simp only [List.mem_singleton] at hw
      subst hw
      exact ⟨h, hcur⟩
  | cons c cs ih =>
    intro cur hcur w hw
    simp only [splitWsAux] at hw
    by_cases hc : c.isWhitespace = true
    · rw [if_pos hc] at hw
      split_ifs at hw with h
      · exact ih [] (by simp) w hw
      · rcases List.mem_cons.1 hw with heq | htail
        · subst heq
          exact ⟨h, hcur⟩
        · exact ih [] (by simp) w htail
    · rw [if_neg hc] at hw
      refine ih (cur ++ [c]) ?_ w hw
      intro a ha
      rcases List.mem_append.1 ha with h1 | h2
      · exact hcur a h1
      · simp only [List.mem_singleton] at h2
        subst h2
        simpa using hc

theorem splitWs_words_good (l : List Char) : ∀ w ∈ splitWs l, goodWord w :=
  splitWsAux_words_good l [] (by simp)

theorem splitWsAux_joinSep_space (g : List (List Char)) :
    g ≠ [] → (∀ w ∈ g, goodWord w) →
    (∀ (c : Char), c.isWhitespace = true → ∀ (rest : List Char),
      splitWsAux (joinSep ' ' g ++ c :: rest) [] = g ++ splitWsAux rest [])
    ∧ splitWsAux (joinSep ' ' g) [] = g := by
  induction g with
  | nil => intro h; exact absurd rfl h
  | cons w g' ih =>
    intro _ hgood
    have hw : goodWord w := hgood w (List.mem_cons_self w g')
    match g' with
    | [] =>
      constructor
      · intro c hc rest
        rw [show joinSep ' ' [w] = w from rfl]
        rw [splitWsAux_push w hw.2 [] (c :: rest)]
        simp only [List.nil_append]
        rw [splitWsAux_ws c hc w rest, if_neg hw.1]
        simp
      · rw [show joinSep ' ' [w] = w from rfl]
        have := splitWsAux_push w hw.2 [] []
        simp only [List.append_nil, List.nil_append] at this
        rw [this]
        simp only [splitWsAux]
        rw [if_neg hw.1]
    | w2 :: g2 =>
      have hgood' : ∀ u ∈ w2 :: g2, goodWord u := fun u hu => hgood u (List.mem_cons_of_mem w hu)
      have ihne := ih (by simp) hgood'
      have hjoin : joinSep ' ' (w :: w2 :: g2) = w ++ ' ' :: joinSep ' ' (w2 :: g2) := rfl
      constructor
      · intro c hc rest
        rw [hjoin]
        rw [show (w ++ ' ' :: joinSep ' ' (w2 :: g2)) ++ c :: rest
              = w ++ ' ' :: (joinSep ' ' (w2 :: g2) ++ c :: rest) by simp]
        rw [splitWsAux_push w hw.2 [] _]
        simp only [List.nil_append]
        rw [splitWsAux_ws ' ' (by decide) w _, if_neg hw.1]
        rw [(ihne.1) c hc rest]
        rfl
      · rw [hjoin]
        rw [show w ++ ' ' :: joinSep ' ' (w2 :: g2)
              = w ++ (' ' :: joinSep ' ' (w2 :: g2)) from rfl]
        rw [splitWsAux_push w hw.2 [] _]
        simp only [List.nil_append]
        rw [splitWsAux_ws ' ' (by decide) w _, if_neg hw.1]
        rw [ihne.2]

theorem wrapLines_flatten (max_chars : ℕ) :
    ∀ (ws cur : List (List Char)) (len : ℕ),
      (wrapLines max_chars ws cur len).flatten = cur ++ ws := by
  intro ws
  induction ws with
  | nil =>
    intro cur len
    simp only [wrapLines]
    split_ifs with h
    · simp [h]
    · simp
  | cons w ws' ih =>
    intro cur len
    simp only [wrapLines]
    split_ifs with h
    · simp only [List.flatten_cons, ih]
      simp
    · rw [ih]
      simp

theorem wrapLines_groups_ne_nil (max_chars : ℕ) :
    ∀ (ws cur : List (List Char)) (len : ℕ),
      ∀ g ∈ wrapLines max_chars ws cur len, g ≠ [] := by
  intro ws
  induction ws with
  | nil =>
    intro cur len g hg
    simp only [wrapLines] at hg
    split_ifs at hg with h
    · simp at hg
    · simp only [List.mem_singleton] at hg
      subst hg
      exact h
  | cons w ws' ih =>
    intro cur len g hg
    simp only [wrapLines] at hg
    split_ifs at hg with h
    · rcases List.mem_cons.1 hg with heq | htail
      · subst heq
        exact h.2
      · exact ih [w] w.length g htail
    · exact ih (cur ++ [w]) (len + w.length + 1) g hg

theorem joinSep_space_length (g : List (List Char)) (hne : g ≠ []) :
    (joinSep ' ' g).length = (g.map List.length).sum + g.length - 1 := by
  induction g with
  | nil => exact absurd rfl hne
  | cons w g' ih =>
    match g' with
    | [] => simp [joinSep]
    | w2 :: g2 =>
      have h2 := ih (by simp)
      have hlen : 1 ≤ (w2 :: g2).length := by simp
      simp only [joinSep, List.length_append, List.length_cons, h2,
        List.map_cons, List.sum_cons] at *
      omega

theorem wrapLines_line_bound (max_chars : ℕ) :
    ∀ (ws cur : List (List Char)) (len : ℕ),
      (cur ≠ [] → (cur.map List.length).sum + cur.length - 1 ≤ len) →
      (2 ≤ cur.length → (cur.map List.length).sum + cur.length - 1 ≤ max_chars) →
      ∀ g ∈ wrapLines max_chars ws cur len, 2 ≤ g.length →
        (g.map List.length).sum + g.length - 1 ≤ max_chars := by
  intro ws
  induction ws with
  | nil =>
    intro cur len _h1 h2 g hg hlen
    simp only [wrapLines] at hg
    split_ifs at hg with h
    · simp at hg
    · simp only [List.mem_singleton] at hg
      subst hg
      exact h2 hlen
  | cons w ws' ih =>
    intro cur len h1 h2 g hg hlen
    simp only [wrapLines] at hg
    split_ifs at hg with h
    · rcases List.mem_cons.1 hg with heq | htail
      · subst heq
        exact h2 hlen
      · refine ih [w] w.length ?_ ?_ g htail hlen
        · intro _
          simp
        · intro habs
          simp at habs
    · have hcases : cur = [] ∨ (cur ≠ [] ∧ len + w.length + 1 ≤ max_chars) := by
        by_cases hc : cur = []
        · exact Or.inl hc
        · right
          refine ⟨hc, ?_⟩
          by_contra hb
          exact h ⟨by omega, hc⟩
      have hnew1 : cur ++ [w] ≠ [] → ((cur ++ [w]).map List.length).sum
          + (cur ++ [w]).length - 1 ≤ len + w.length + 1 := by
        intro _
        rcases hcases with hc | ⟨hc, _⟩
        · subst hc
          simp only [List.nil_append, List.map_cons, List.map_nil, List.sum_cons,
            List.sum_nil, List.length_cons, List.length_nil]
          omega
        · have := h1 hc
          have hcl : 1 ≤ cur.length := List.length_pos.2 hc
          simp only [List.map_append, List.sum_append, List.length_append,
            List.map_cons, List.sum_cons, List.map_nil, List.sum_nil,
            List.length_cons, List.length_nil] at *
          omega
      have hnew2 : 2 ≤ (cur ++ [w]).length → ((cur ++ [w]).map List.length).sum
          + (cur ++ [w]).length - 1 ≤ max_chars := by
        intro hl2
        rcases hcases with hc | ⟨hc, hfit⟩
        · subst hc
          simp at hl2
        · have := hnew1 (by simp)
          omega
      exact ih (cur ++ [w]) (len + w.length + 1) hnew1 hnew2 g hg hlen

theorem splitWs_joinLines :
    ∀ (groups : List (List (List Char))),
      (∀ g ∈ groups, g ≠ []) → (∀ g ∈ groups, ∀ w ∈ g, goodWord w) →
      splitWs (joinSep '\n' (groups.map (joinSep ' '))) = groups.flatten := by
  intro groups
  induction groups with
  | nil => intro _ _; rfl
  | cons g gs ih =>
    intro hne hgood
    have hgne : g ≠ [] := hne g (List.mem_cons_self g gs)
    have hggood : ∀ w ∈ g, goodWord w := hgood g (List.mem_cons_self g gs)
    match gs with
    | [] =>
      have := (splitWsAux_joinSep_space g hgne hggood).2
      simpa [splitWs, joinSep] using this
    | g2 :: gs2 =>
      have hne2 : ∀ u ∈ g2 :: gs2, u ≠ [] := fun u hu => hne u (List.mem_cons_of_mem g hu)
      have hgood2 : ∀ u ∈ g2 :: gs2, ∀ w ∈ u, goodWord w :=
        fun u hu => hgood u (List.mem_cons_of_mem g hu)
      have hstep : joinSep '\n' ((g :: g2 :: gs2).map (joinSep ' '))
          = joinSep ' ' g ++ '\n' :: joinSep '\n' ((g2 :: gs2).map (joinSep ' ')) := rfl
      have h1 := (splitWsAux_joinSep_space g hgne hggood).1 '\n' (by decide)
        (joinSep '\n' ((g2 :: gs2).map (joinSep ' ')))
      have h2 := ih hne2 hgood2
      have h2x : splitWsAux (joinSep '\n' ((g2 :: gs2).map (joinSep ' '))) []
          = (g2 :: gs2).flatten := h2
      show splitWsAux (joinSep '\n' ((g :: g2 :: gs2).map (joinSep ' '))) []
          = (g :: g2 :: gs2).flatten
      rw [hstep, h1, List.flatten_cons, h2x]

/-- C9: the greedy word wrap never splits a word: splitting the wrapped
output on whitespace returns exactly the original word sequence; every
produced line holding more than one word has length at most max_chars;
and the sidecar wrapper is the identical algorithm, so the facts hold at
width 50 for the overlay and width 45 for the sidecar file alike. -/
theorem C9_wrap_never_splits_words (max_chars : ℕ) (text : String) :
    splitWs (wrap_text text max_chars) = splitWs text.toList
    ∧ (∀ l ∈ (wrapLines max_chars (splitWs text.toList) [] 0).map (joinSep ' '),
        1 < (splitWs l).length → l.length ≤ max_chars)
    ∧ wrap_subtitle_text text max_chars = wrap_text text max_chars := by
  have hgood := splitWs_words_good text.toList
  have hflat : (wrapLines max_chars (splitWs text.toList) [] 0).flatten
      = splitWs text.toList := by
    rw [wrapLines_flatten]
    simp
  have hgne : ∀ g ∈ wrapLines max_chars (splitWs text.toList) [] 0, g ≠ [] :=
    wrapLines_groups_ne_nil max_chars _ [] 0
  have hgw : ∀ g ∈ wrapLines max_chars (splitWs text.toList) [] 0, ∀ w ∈ g, goodWord w := by
    intro g hg w hw
    exact hgood w (hflat ▸ List.mem_flatten.2 ⟨g, hg, hw⟩)
  refine ⟨?_, ?_, rfl⟩
  · unfold wrap_text
    rw [splitWs_joinLines _ hgne hgw, hflat]
  · intro l hl hwords
    obtain ⟨g, hg, rfl⟩ := List.mem_map.1 hl
    have hsplit : splitWs (joinSep ' ' g) = g :=
      (splitWsAux_joinSep_space g (hgne g hg) (hgw g hg)).2
    rw [hsplit] at hwords
    have hbound := wrapLines_line_bound max_chars (splitWs text.toList) [] 0
      (fun h => absurd rfl h) (fun h => by simp at h) g hg (by omega)
    rw [joinSep_space_length g (hgne g hg)]
    exact hbound

/-- Witness for C9: wrapping the two-word text aaaa bbbb at width 10
keeps it on one line of length 9, and that line respects the bound. -/
theorem C9_wrap_never_splits_words_witness :
    splitWs (wrap_text "aaaa bbbb" 10) = splitWs "aaaa bbbb".toList
    ∧ "aaaa bbbb".toList.length ≤ 10 :=
  ⟨(C9_wrap_never_splits_words 10 "aaaa bbbb").1,
   (C9_wrap_never_splits_words 10 "aaaa bbbb").2.1 "aaaa bbbb".toList
     (by decide) (by decide)⟩

/- ── Sidecar SRT duration selection (srt_generator.py + step 6) ─────── -/

/-- The duration map generate_srt_from_script_only builds: word-count
estimate max(3.0, words / 3.0) for every scene. -/
def srt_script_only_durations (script : Script) : List (ℕ × ℚ) :=
  script.scenes.map fun sc =>
    (sc.scene_id, max 3 ((wordCount sc.narration : ℚ) / 3))

/-- The duration map generate_srt_from_audio_files builds: the measured
duration of scene_XX.wav when that file exists (only the .wav extension
is probed), else the word-count estimate. -/
def srt_audio_files_durations (script : Script) (audio : AudioDir) : List (ℕ × ℚ) :=
  script.scenes.map fun sc =>
    (sc.scene_id,
      match audio sc.scene_id ".wav" with
      | some d => d
      | none => max 3 ((wordCount sc.narration : ℚ) / 3))

/-- Step 6 of assemble_video: the sidecar file is generated from measured
audio durations, overridden by the script-only estimate when no scene has
a .wav file (the existence check also only tests the .wav extension). -/
def sidecarDurations (script : Script) (audio : AudioDir) : List (ℕ × ℚ) :=
  if script.scenes.any (fun sc => (audio sc.scene_id ".wav").isSome) then
    srt_audio_files_durations script audio
  else
    srt_script_only_durations script

/-- A scene whose narration estimates to 4 seconds. -/
def sceneC6 : Scene :=
  ⟨1, "one two three four five six seven eight nine ten eleven twelve", none⟩

/-- A one-scene script for the C6 counterexample. -/
def scriptC6 : Script := ⟨"t", [sceneC6]⟩

/-- An audio directory holding only scene_01.mp3, measured at 7 seconds. -/
def audioC6 : AudioDir := fun sid ext => if sid = 1 ∧ ext = ".mp3" then some 7 else none

/-- C6 counterexample: a real per-scene audio file (an .mp3, accepted by
the DurationPlanner) exists and measures 7 seconds, yet the sidecar
timing uses the 4 second word-count estimate, not the measured duration:
the claim as stated is false because only .wav files reach the sidecar. -/
theorem C6_sidecar_counterexample :
    (∃ sc ∈ scriptC6.scenes, (firstAudio audioC6 sc.scene_id).isSome)
    ∧ firstAudio audioC6 1 = some 7
    ∧ sidecarDurations scriptC6 audioC6 = [(1, 4)]
    ∧ (1, 7) ∉ sidecarDurations scriptC6 audioC6 := by
  have hwc : wordCount sceneC6.narration = 12 := by decide
  have hfa : firstAudio audioC6 1 = some 7 := rfl
  have hnone : audioC6 1 ".wav" = none := rfl
  have hside : sidecarDurations scriptC6 audioC6 = [(1, 4)] := by
    unfold sidecarDurations
    rw [if_neg (by decide)]
    unfold srt_script_only_durations scriptC6
    simp only [List.map_cons, List.map_nil]
    rw [hwc]
    norm_num [sceneC6]
  refine ⟨⟨sceneC6, by simp [scriptC6], by decide⟩,
    hfa, hside, ?_⟩
  rw [hside]
  norm_num

/-- C6 amended (corrected claim): whenever any per-scene .wav file exists,
the sidecar uses the durations of generate_srt_from_audio_files — the
measured duration for each scene that has a .wav file, the word-count
estimate for the rest; when no scene has a .wav file, the script-only
word-count estimates max(3.0, words / 3.0) are used for every scene,
computed without budget-scaling in either case. -/
theorem C6_sidecar_duration_source (script : Script) (audio : AudioDir) :
    ((∃ sc ∈ script.scenes, (audio sc.scene_id ".wav").isSome) →
      sidecarDurations script audio = srt_audio_files_durations script audio
      ∧ ∀ sc ∈ script.scenes, ∀ d : ℚ, audio sc.scene_id ".wav" = some d →
          (sc.scene_id, d) ∈ sidecarDurations script audio)
    ∧ ((∀ sc ∈ script.scenes, audio sc.scene_id ".wav" = none) →
      sidecarDurations script audio = srt_script_only_durations script
      ∧ ∀ sc ∈ script.scenes,
          (sc.scene_id, max 3 ((wordCount sc.narration : ℚ) / 3))
            ∈ sidecarDurations script audio) := by
  constructor
  · intro hex
    have hany : script.scenes.any (fun sc => (audio sc.scene_id ".wav").isSome) = true := by
      obtain ⟨sc, hsc, hsome⟩ := hex
      exact List.any_eq_true.2 ⟨sc, hsc, hsome⟩
    have heq : sidecarDurations script audio = srt_audio_files_durations script audio := by
      unfold sidecarDurations
      rw [if_pos hany]
    refine ⟨heq, ?_⟩
    intro sc hsc d hd
    rw [heq]
    unfold srt_audio_files_durations
    refine List.mem_map.2 ⟨sc, hsc, ?_⟩
    rw [hd]
  · intro hall
    have hany : script.scenes.any (fun sc => (audio sc.scene_id ".wav").isSome) = false := by
      rw [List.any_eq_false]
      intro sc hsc
      rw [hall sc hsc]
      simp
    have heq : sidecarDurations script audio = srt_script_only_durations script := by
      unfold sidecarDurations
      rw [hany]
      simp
    refine ⟨heq, ?_⟩
    intro sc hsc
    rw [heq]
    exact List.mem_map.2 ⟨sc, hsc, rfl⟩

/-- Witness for the amended C6 at a one-scene script with a 6 second
scene_01.wav present. -/
theorem C6_sidecar_duration_source_witness :
    sidecarDurations ⟨"t", [⟨1, "hi", none⟩]⟩
        (fun sid ext => if sid = 1 ∧ ext = ".wav" then some 6 else none)
      = srt_audio_files_durations ⟨"t", [⟨1, "hi", none⟩]⟩
        (fun sid ext => if sid = 1 ∧ ext = ".wav" then some 6 else none)
    ∧ (1, (6:ℚ)) ∈ sidecarDurations ⟨"t", [⟨1, "hi", none⟩]⟩
        (fun sid ext => if sid = 1 ∧ ext = ".wav" then some 6 else none) := by
  have h := (C6_sidecar_duration_source ⟨"t", [⟨1, "hi", none⟩]⟩
    (fun sid ext => if sid = 1 ∧ ext = ".wav" then some 6 else none)).1
    ⟨⟨1, "hi", none⟩, by simp, rfl⟩
  exact ⟨h.1, h.2 ⟨1, "hi", none⟩ (by simp) 6 rfl⟩
